import Mathlib

/-!
Verification of the quad-tree spatial index and the particle collision
solver of the simulation repository (scripts/quad_tree.py and
scripts/collision_sys.py), as a shallow embedding.

Rectangles carry integer coordinates, as the rendering library's
rectangle type stores them.  Particle coordinates are embedded as exact
rationals for the spatial index and the integrator, and as real numbers
for the pairwise collision response (which takes a square root).
-/

namespace Sim

/-- Axis-aligned rectangle with integer fields x, y, width, height, as
stored by the rectangle type used for tree boundaries and query ranges. -/
structure Rect where
  x : ℤ
  y : ℤ
  w : ℤ
  h : ℤ
deriving DecidableEq, Repr

/-- Truncation of a rational toward zero: the conversion applied to a
float coordinate before the point-membership test of a rectangle. -/
def pyint (q : ℚ) : ℤ := if 0 ≤ q then Rat.floor q else -(Rat.floor (-q))

/-- Half-open integer point membership test of a rectangle
(collidepoint): the left and top edges are inside, the right and bottom
edges are outside. -/
def memb (r : Rect) (px py : ℤ) : Bool :=
  decide (r.x ≤ px) && decide (px < r.x + r.w) &&
  decide (r.y ≤ py) && decide (py < r.y + r.h)

/-- Rectangle overlap test (colliderect): a rectangle with zero width or
height collides with nothing; otherwise strict overlap on both axes. -/
def collideRect (a b : Rect) : Bool :=
  !(decide (a.w = 0)) && !(decide (a.h = 0)) &&
  !(decide (b.w = 0)) && !(decide (b.h = 0)) &&
  decide (a.x < b.x + b.w) && decide (b.x < a.x + a.w) &&
  decide (a.y < b.y + b.h) && decide (b.y < a.y + a.h)

/-- A particle: position, cosmetic radius and color, previous position
(encoding the implicit velocity), accumulated acceleration, and the
unused mass field.  The coordinate type is a parameter so that the
spatial index can work over exact rationals while the collision
response works over the reals. -/
structure Particle (α : Type) where
  x : α
  y : α
  radius : α
  color : ℕ × ℕ × ℕ
  lastPos : α × α
  accel : α × α
  mass : α
deriving DecidableEq

/-- Particles handled by the spatial index, with rational coordinates. -/
abbrev PQ := Particle ℚ

/-- Point membership of a rational point in a rectangle, after the
truncation the rectangle test applies to each float coordinate. -/
def collidesPt (r : Rect) (qx qy : ℚ) : Bool := memb r (pyint qx) (pyint qy)

/-- Membership test of a particle's point in a rectangle. -/
def colP (b : Rect) (p : PQ) : Bool := collidesPt b p.x p.y

/-- Northeast child rectangle produced by subdivide: floor-halved width
and height, shifted right by the half width. -/
def neRect (b : Rect) : Rect :=
  ⟨b.x + Int.fdiv b.w 2, b.y, Int.fdiv b.w 2, Int.fdiv b.h 2⟩

/-- Northwest child rectangle produced by subdivide. -/
def nwRect (b : Rect) : Rect :=
  ⟨b.x, b.y, Int.fdiv b.w 2, Int.fdiv b.h 2⟩

/-- Southeast child rectangle produced by subdivide. -/
def seRect (b : Rect) : Rect :=
  ⟨b.x + Int.fdiv b.w 2, b.y + Int.fdiv b.h 2, Int.fdiv b.w 2, Int.fdiv b.h 2⟩

/-- Southwest child rectangle produced by subdivide. -/
def swRect (b : Rect) : Rect :=
  ⟨b.x, b.y + Int.fdiv b.h 2, Int.fdiv b.w 2, Int.fdiv b.h 2⟩

/-- The four child rectangles of subdivide, in the NE, NW, SE, SW order
the code creates them. -/
def subdivideRects (b : Rect) : Rect × Rect × Rect × Rect :=
  (neRect b, nwRect b, seRect b, swRect b)

/-- A quad tree node: either a leaf holding its directly contained
particles, or an internal (divided) node holding its fallback particles
and four children in NE, NW, SE, SW order.  Boundaries are not stored:
every operation receives the node's rectangle and derives the
children's rectangles exactly as subdivide computes them. -/
inductive QuadTree where
  | leaf (particles : List PQ)
  | node (particles : List PQ) (ne nw se sw : QuadTree)
deriving DecidableEq

/-- A bundle of the four children of a divided node. -/
structure Four where
  ne : QuadTree
  nw : QuadTree
  se : QuadTree
  sw : QuadTree
deriving DecidableEq

/-- All particles stored anywhere in a tree, in the traversal order
particles / NE / NW / SE / SW. -/
def allParticles : QuadTree → List PQ
  | .leaf ps => ps
  | .node ps ne nw se sw =>
      ps ++ allParticles ne ++ allParticles nw ++ allParticles se ++
        allParticles sw

/-- All particles stored in a bundle of four children. -/
def allFour (c : Four) : List PQ :=
  allParticles c.ne ++ allParticles c.nw ++ allParticles c.se ++
    allParticles c.sw

/-- Attempt an insertion into the four children in the fixed NE, NW,
SE, SW order, stopping at the first success; children mutated by failed
attempts are kept (a failed child insertion can still have subdivided
that child). -/
def tryChildren (fNE fNW fSE fSW : QuadTree → PQ → Bool × QuadTree)
    (c : Four) (p : PQ) : Bool × Four :=
  let r1 := fNE c.ne p
  if r1.1 then (true, ⟨r1.2, c.nw, c.se, c.sw⟩) else
  let r2 := fNW c.nw p
  if r2.1 then (true, ⟨r1.2, r2.2, c.se, c.sw⟩) else
  let r3 := fSE c.se p
  if r3.1 then (true, ⟨r1.2, r2.2, r3.2, c.sw⟩) else
  let r4 := fSW c.sw p
  (r4.1, ⟨r1.2, r2.2, r3.2, r4.2⟩)

/-- Move a list of previously contained particles into the four
children of a freshly subdivided node, in order; a particle accepted by
no child is retained in the parent's own list (first component). -/
def distribute (fNE fNW fSE fSW : QuadTree → PQ → Bool × QuadTree)
    (c : Four) : List PQ → List PQ × Four
  | [] => ([], c)
  | q :: rest =>
    let rc := tryChildren fNE fNW fSE fSW c q
    let kc := distribute fNE fNW fSE fSW rc.2 rest
    (if rc.1 then kc.1 else q :: kc.1, kc.2)

/-- Insertion with a recursion-depth budget.  A step: reject a point
outside the node's rectangle; append to a leaf with room; otherwise
subdivide a full leaf, redistribute its particles into the fresh
children (failures stay in the node's list) and then try the new
particle on the four children in order; on a divided node, try the four
children in order.  The budget only bounds the nesting depth; `insert`
below always supplies a budget larger than the tree's rectangle can
use, so the budget-exhausted branch is unreachable from `insert`. -/
def insertF : ℕ → Rect → ℕ → QuadTree → PQ → Bool × QuadTree
  | 0, _, _, t, _ => (false, t)
  | fuel + 1, b, cap, t, p =>
    if colP b p then
      match t with
      | .leaf ps =>
        if ps.length < cap then (true, .leaf (ps ++ [p]))
        else
          let kc := distribute (insertF fuel (neRect b) cap)
                      (insertF fuel (nwRect b) cap)
                      (insertF fuel (seRect b) cap)
                      (insertF fuel (swRect b) cap)
                      ⟨.leaf [], .leaf [], .leaf [], .leaf []⟩ ps
          let rc := tryChildren (insertF fuel (neRect b) cap)
                      (insertF fuel (nwRect b) cap)
                      (insertF fuel (seRect b) cap)
                      (insertF fuel (swRect b) cap) kc.2 p
          (rc.1, .node kc.1 rc.2.ne rc.2.nw rc.2.se rc.2.sw)
      | .node ps ne nw se sw =>
          let rc := tryChildren (insertF fuel (neRect b) cap)
                      (insertF fuel (nwRect b) cap)
                      (insertF fuel (seRect b) cap)
                      (insertF fuel (swRect b) cap) ⟨ne, nw, se, sw⟩ p
          (rc.1, .node ps rc.2.ne rc.2.nw rc.2.se rc.2.sw)
    else (false, t)

/-- Size measure of a rectangle; each subdivision strictly shrinks it,
so it bounds the possible nesting depth of insertion. -/
def rsize (b : Rect) : ℕ := b.w.toNat + b.h.toNat

/-- QuadTree.insert: returns whether the particle was placed, and the
updated tree. -/
def insert (b : Rect) (cap : ℕ) (t : QuadTree) (p : PQ) : Bool × QuadTree :=
  insertF (rsize b + 1) b cap t p

/-- QuadTree.query: prune a node whose rectangle does not overlap the
range, otherwise append the directly held particles whose point lies in
the range and recurse into all four children in order, threading the
accumulator. -/
def query (b : Rect) : QuadTree → Rect → List PQ → List PQ
  | .leaf ps, range, found =>
      if collideRect b range then
        found ++ ps.filter (fun p => collidesPt range p.x p.y)
      else found
  | .node ps ne nw se sw, range, found =>
      if collideRect b range then
        query (swRect b) sw range
          (query (seRect b) se range
            (query (nwRect b) nw range
              (query (neRect b) ne range
                (found ++ ps.filter (fun p => collidesPt range p.x p.y)))))
      else found

/-- Geometric well-formedness of a tree rooted at a rectangle: at every
node, every particle stored anywhere in that node's subtree lies inside
the node's rectangle.  The empty tree satisfies it, and insertion
preserves it, because insertion only descends through rectangles whose
membership test accepted the point. -/
def inv (b : Rect) : QuadTree → Bool
  | .leaf ps => ps.all (colP b)
  | .node ps ne nw se sw =>
      (ps ++ allParticles ne ++ allParticles nw ++ allParticles se ++
        allParticles sw).all (colP b) &&
      inv (neRect b) ne && inv (nwRect b) nw &&
      inv (seRect b) se && inv (swRect b) sw

namespace Particle

/-- Particle.setVelocity: back-date the previous position so that the
implicit velocity becomes (vx, vy) over a step of dt. -/
def setVelocity {α : Type} [LinearOrderedField α] (p : Particle α)
    (vx vy dt : α) : Particle α :=
  { p with lastPos := (p.x - vx * dt, p.y - vy * dt) }

/-- Particle.addVelocity: shift the previous position additively. -/
def addVelocity {α : Type} [LinearOrderedField α] (p : Particle α)
    (vx vy dt : α) : Particle α :=
  { p with lastPos := (p.lastPos.1 - vx * dt, p.lastPos.2 - vy * dt) }

/-- Particle.getVelocity: the displacement over the last step. -/
def getVelocity {α : Type} [LinearOrderedField α] (p : Particle α) : α × α :=
  (p.x - p.lastPos.1, p.y - p.lastPos.2)

/-- Particle.accelerate: accumulate acceleration components. -/
def accelerate {α : Type} [LinearOrderedField α] (p : Particle α)
    (ax ay : α) : Particle α :=
  { p with accel := (p.accel.1 + ax, p.accel.2 + ay) }

/-- Particle.update: the damped Verlet step of the code, with the fixed
dampening constant 1/2 applied to the previous displacement; afterwards
the previous position is the old position and the accumulated
acceleration is cleared. -/
def update {α : Type} [LinearOrderedField α] (p : Particle α)
    (dt : α) : Particle α :=
  let lastUpMove := (p.x - p.lastPos.1, p.y - p.lastPos.2)
  let newPos :=
    (p.x + lastUpMove.1 + (p.accel.1 - lastUpMove.1 * (1/2)) * (dt * dt),
     p.y + lastUpMove.2 + (p.accel.2 - lastUpMove.2 * (1/2)) * (dt * dt))
  { p with lastPos := (p.x, p.y), x := newPos.1, y := newPos.2,
           accel := (0, 0) }

end Particle

/-- The integrator step exactly as the specification words it: with
last_move the difference of position and previous position, the new
position is position + last_move + (accumulated_acceleration −
last_move * damping) * dt², damping being the fixed constant 0.5;
afterwards previous_position is the old position, and the accumulated
acceleration is reset to zero. -/
def updateSpec {α : Type} [LinearOrderedField α] (p : Particle α)
    (dt : α) : Particle α :=
  let lastMove := (p.x - p.lastPos.1, p.y - p.lastPos.2)
  let damping : α := 1/2
  { p with
      x := p.x + lastMove.1 + (p.accel.1 - lastMove.1 * damping) * dt ^ 2,
      y := p.y + lastMove.2 + (p.accel.2 - lastMove.2 * damping) * dt ^ 2,
      lastPos := (p.x, p.y),
      accel := (0, 0) }

/-- The gravity constant of the collision system, 200.0 * 10. -/
def gravityConst : ℚ := 200 * 10

/-- CollisionSystem.apply_gravity on one particle: accumulate the
gravity acceleration scaled by the substep. -/
def applyGravity {α : Type} [LinearOrderedField α] (gravity dt : α)
    (p : Particle α) : Particle α :=
  Particle.accelerate p 0 (gravity * dt)

/-- CollisionSystem.wall_collisions on one particle: for the x axis and
then the y axis, clamp a crossing particle back inside the arena and
reassign the implicit velocity, read after the clamp, with the crossed
component negated and scaled by the restitution 0.8, through
setVelocity at dt = 1. -/
def wallCollide {α : Type} [LinearOrderedField α] (width height : α)
    (p0 : Particle α) : Particle α :=
  let restitution : α := 8/10
  let p1 :=
    if p0.x - p0.radius < 0 then
      let p := { p0 with x := p0.radius }
      let v := Particle.getVelocity p
      Particle.setVelocity p (-v.1 * restitution) v.2 1
    else if p0.x + p0.radius > width then
      let p := { p0 with x := width - p0.radius }
      let v := Particle.getVelocity p
      Particle.setVelocity p (-v.1 * restitution) v.2 1
    else p0
  if p1.y - p1.radius < 0 then
    let p := { p1 with y := p1.radius }
    let v := Particle.getVelocity p
    Particle.setVelocity p v.1 (-v.2 * restitution) 1
  else if p1.y + p1.radius > height then
    let p := { p1 with y := height - p1.radius }
    let v := Particle.getVelocity p
    Particle.setVelocity p v.1 (-v.2 * restitution) 1
  else p1

/-- CollisionSystem.wall_collisions over the particle collection. -/
def wallCollisions {α : Type} [LinearOrderedField α] (width height : α)
    (ps : List (Particle α)) : List (Particle α) :=
  ps.map (wallCollide width height)

/-- Squared distance between the centers of two particles. -/
def dist2R (p1 p2 : Particle ℝ) : ℝ :=
  (p2.x - p1.x) * (p2.x - p1.x) + (p2.y - p1.y) * (p2.y - p1.y)

/-- Sum of the radii of two particles. -/
def minDistR (p1 p2 : Particle ℝ) : ℝ := p1.radius + p2.radius

/-- CollisionSystem.resolveCollision: when the squared center distance
is below the squared radius sum and above the guard 1e-6, push the two
particles apart symmetrically, each by half the overlap along the unit
center-to-center normal; otherwise leave both unchanged. -/
noncomputable def resolveCollision (p1 p2 : Particle ℝ) :
    Particle ℝ × Particle ℝ :=
  let respCoefficient : ℝ := 1
  let eps : ℝ := 1 / 1000000
  let dx := p2.x - p1.x
  let dy := p2.y - p1.y
  if dist2R p1 p2 < minDistR p1 p2 * minDistR p1 p2 ∧ dist2R p1 p2 > eps then
    let dist := Real.sqrt (dist2R p1 p2)
    let overlap := minDistR p1 p2 - dist
    let delta := respCoefficient * (1/2) * overlap
    let nx := dx / dist
    let ny := dy / dist
    ({ p1 with x := p1.x - nx * delta, y := p1.y - ny * delta },
     { p2 with x := p2.x + nx * delta, y := p2.y + ny * delta })
  else (p1, p2)

/-- A particle at a given position with the given radius, previous
position equal to the position (zero implicit velocity), no accumulated
acceleration, white color and unit mass. -/
def mkParticleQ (x y r : ℚ) : PQ := ⟨x, y, r, (255, 255, 255), (x, y), (0, 0), 1⟩

/-- A real-coordinate particle at a given position with the given
radius, at rest. -/
def mkParticleR (x y r : ℝ) : Particle ℝ := ⟨x, y, r, (255, 255, 255), (x, y), (0, 0), 1⟩

/-- The 3-by-3 rectangle used in the subdivision counterexamples. -/
def oddRoot : Rect := ⟨0, 0, 3, 3⟩

/-- Particle 1 of the separation scenario: radius 5 at (100, 100). -/
def scenP1 : Particle ℝ := mkParticleR 100 100 5

/-- Particle 2 of the separation scenario: radius 5 at (106, 100). -/
def scenP2 : Particle ℝ := mkParticleR 106 100 5

/-- The near-coincident pair of the C2 counterexample: radius-5
particles whose centers are 1/2000 apart, so the squared distance
1/4000000 is positive but below the code's 1e-6 guard. -/
def nearP1 : Particle ℝ := mkParticleR 100 100 5

/-- Second particle of the near-coincident pair. -/
noncomputable def nearP2 : Particle ℝ := mkParticleR (100 + 1/2000) 100 5

/-- The particle of the C3 counterexample and witness: radius 5 at
x = 2 (it has crossed the left wall by 3 units), approaching the wall
with implicit velocity (−10, 0). -/
def leftWallP : Particle ℚ := ⟨2, 50, 5, (255, 255, 255), (12, 50), (0, 0), 1⟩

/-- The oversized particle of the C8 counterexample: radius 8 in a
10 by 10 arena. -/
def bigP : Particle ℚ := ⟨1, 5, 8, (255, 255, 255), (1, 5), (0, 0), 1⟩

/-- Count conservation property of an insertion function: one call adds
exactly one occurrence of the inserted particle when it reports
success, and never changes the multiplicity of any other particle. -/
def CountSpec (f : QuadTree → PQ → Bool × QuadTree) : Prop :=
  ∀ t p q, List.count q (allParticles (f t p).2) =
    List.count q (allParticles t) + (if (f t p).1 = true ∧ q = p then 1 else 0)

/-- C6: for every particle and every dt, the code's update step computes
exactly the specified damped Verlet step: new position = position +
last_move + (accumulated_acceleration − last_move * 0.5) * dt², then
previous_position becomes the old position, position the new one, and
the accumulated acceleration is reset to zero. -/
theorem C6_update_is_specified_verlet_step (p : Particle ℚ) (dt : ℚ) :
    Particle.update p dt = updateSpec p dt := by
  cases p with
  | mk x y r c lp a m =>
    simp only [Particle.update, updateSpec, Particle.mk.injEq, and_true, true_and]
    constructor <;> ring

/-- C7 (amended): from rest (previous position equal to position, zero
accumulated acceleration), one gravity application accelerate(0, g·s)
followed by update(s) leaves the previous position unchanged and raises
the y position by exactly g·s·s² (not g·s²): the accumulated
acceleration g·s is multiplied by s² by the integrator. -/
theorem C7_gravity_substep_displacement (p : Particle ℚ) (g s : ℚ)
    (hrest : p.lastPos = (p.x, p.y)) (hacc : p.accel = (0, 0)) :
    (Particle.update (applyGravity g s p) s).lastPos = (p.x, p.y) ∧
    (Particle.update (applyGravity g s p) s).x = p.x ∧
    (Particle.update (applyGravity g s p) s).y = p.y + g * s * (s * s) := by
  simp [Particle.update, applyGravity, Particle.accelerate, hrest, hacc]

/-- Witness for C7 at the spec's scenario numbers: gravity constant
2000 and substep 1/50. -/
theorem C7_witness :
    (Particle.update (applyGravity 2000 (1/50) (mkParticleQ 0 0 3)) (1/50)).lastPos
        = ((mkParticleQ 0 0 3).x, (mkParticleQ 0 0 3).y) ∧
    (Particle.update (applyGravity 2000 (1/50) (mkParticleQ 0 0 3)) (1/50)).x
        = (mkParticleQ 0 0 3).x ∧
    (Particle.update (applyGravity 2000 (1/50) (mkParticleQ 0 0 3)) (1/50)).y
        = (mkParticleQ 0 0 3).y + 2000 * (1/50) * ((1/50) * (1/50)) :=
  C7_gravity_substep_displacement (mkParticleQ 0 0 3) 2000 (1/50) rfl rfl

/-- Counterexample for C7 as stated: at gravity 2000 and substep 1/50
the y increase is 2/125 = 0.016, while gravity·sub_dt² is 4/5 = 0.8, a
factor of 50 larger; the damping term contributes nothing here, so the
claimed approximate increase is off by that factor. -/
theorem C7_counterexample :
    (Particle.update (applyGravity 2000 (1/50) (mkParticleQ 0 0 3)) (1/50)).y = 2/125 ∧
    gravityConst * ((1/50) * (1/50)) = 4/5 ∧
    ((2 : ℚ)/125 ≠ 4/5) ∧
    (4 : ℚ)/5 = 50 * (2/125) := by
  refine ⟨by norm_num [Particle.update, applyGravity, Particle.accelerate, mkParticleQ, gravityConst],
    by norm_num [gravityConst], by norm_num, by norm_num⟩

/-- C9: resolveCollision is a pure position correction: for both
particles it leaves the previous position, the accumulated
acceleration, the radius, the color and the mass unchanged. -/
theorem C9_resolve_is_pure_position_correction (p1 p2 : Particle ℝ) :
    ((resolveCollision p1 p2).1.lastPos = p1.lastPos ∧
     (resolveCollision p1 p2).1.accel = p1.accel ∧
     (resolveCollision p1 p2).1.radius = p1.radius ∧
     (resolveCollision p1 p2).1.color = p1.color ∧
     (resolveCollision p1 p2).1.mass = p1.mass) ∧
    ((resolveCollision p1 p2).2.lastPos = p2.lastPos ∧
     (resolveCollision p1 p2).2.accel = p2.accel ∧
     (resolveCollision p1 p2).2.radius = p2.radius ∧
     (resolveCollision p1 p2).2.color = p2.color ∧
     (resolveCollision p1 p2).2.mass = p2.mass) := by
  by_cases h : dist2R p1 p2 < minDistR p1 p2 * minDistR p1 p2 ∧ dist2R p1 p2 > 1/1000000
  · simp only [resolveCollision, if_pos h]
    simp
  · simp only [resolveCollision, if_neg h]
    simp

/-- C4 (amended): the four subdivision children are four congruent
floor-halved quadrants; an integer point lies in some child exactly
when it lies in the rectangle of width 2·⌊w/2⌋ and height 2·⌊h/2⌋ at
the parent's corner, and no point lies in two children.  When w or h is
odd this covered rectangle is strictly smaller than the parent. -/
theorem C4_subdivision_covers_floor_halves (b : Rect) (px py : ℤ) :
    ((memb (neRect b) px py || memb (nwRect b) px py ||
      memb (seRect b) px py || memb (swRect b) px py) = true ↔
      (b.x ≤ px ∧ px < b.x + 2 * Int.fdiv b.w 2 ∧
       b.y ≤ py ∧ py < b.y + 2 * Int.fdiv b.h 2)) ∧
    ¬(memb (neRect b) px py = true ∧ memb (nwRect b) px py = true) ∧
    ¬(memb (neRect b) px py = true ∧ memb (seRect b) px py = true) ∧
    ¬(memb (neRect b) px py = true ∧ memb (swRect b) px py = true) ∧
    ¬(memb (nwRect b) px py = true ∧ memb (seRect b) px py = true) ∧
    ¬(memb (nwRect b) px py = true ∧ memb (swRect b) px py = true) ∧
    ¬(memb (seRect b) px py = true ∧ memb (swRect b) px py = true) := by
  obtain ⟨x, y, w, h⟩ := b
  simp only [memb, neRect, nwRect, seRect, swRect, Bool.or_eq_true,
    Bool.and_eq_true, decide_eq_true_eq]
  generalize Int.fdiv w 2 = hw
  generalize Int.fdiv h 2 = hh
  omega

/-- Counterexample for C4 as stated: on the 3-by-3 rectangle the point
(2,2) lies in the parent but in none of the four children, and the
southeast/southwest children have exactly the same width and height as
the northeast/northwest ones — no child absorbs the odd remainder, so
the children do not partition the parent. -/
theorem C4_counterexample :
    memb oddRoot 2 2 = true ∧
    memb (neRect oddRoot) 2 2 = false ∧
    memb (nwRect oddRoot) 2 2 = false ∧
    memb (seRect oddRoot) 2 2 = false ∧
    memb (swRect oddRoot) 2 2 = false ∧
    (seRect oddRoot).w = (neRect oddRoot).w ∧
    (seRect oddRoot).h = (neRect oddRoot).h ∧
    (swRect oddRoot).w = (nwRect oddRoot).w ∧
    (swRect oddRoot).h = (nwRect oddRoot).h := by
  decide

/-- Unfolding of resolveCollision when the code's guard condition
(squared distance below squared radius sum and above 1e-6) holds. -/
theorem resolveCollision_pos (p1 p2 : Particle ℝ)
    (h : dist2R p1 p2 < minDistR p1 p2 * minDistR p1 p2 ∧ dist2R p1 p2 > 1/1000000) :
    resolveCollision p1 p2 =
      ({ p1 with
          x := p1.x - (p2.x - p1.x) / Real.sqrt (dist2R p1 p2) *
            (1 * (1/2) * (minDistR p1 p2 - Real.sqrt (dist2R p1 p2))),
          y := p1.y - (p2.y - p1.y) / Real.sqrt (dist2R p1 p2) *
            (1 * (1/2) * (minDistR p1 p2 - Real.sqrt (dist2R p1 p2))) },
       { p2 with
          x := p2.x + (p2.x - p1.x) / Real.sqrt (dist2R p1 p2) *
            (1 * (1/2) * (minDistR p1 p2 - Real.sqrt (dist2R p1 p2))),
          y := p2.y + (p2.y - p1.y) / Real.sqrt (dist2R p1 p2) *
            (1 * (1/2) * (minDistR p1 p2 - Real.sqrt (dist2R p1 p2))) }) := by
  simp only [resolveCollision, if_pos h]

/-- Unfolding of resolveCollision when the guard condition fails: both
particles are returned unchanged. -/
theorem resolveCollision_neg (p1 p2 : Particle ℝ)
    (h : ¬ (dist2R p1 p2 < minDistR p1 p2 * minDistR p1 p2 ∧ dist2R p1 p2 > 1/1000000)) :
    resolveCollision p1 p2 = (p1, p2) := by
  simp only [resolveCollision, if_neg h]

/-- C2 (amended): resolveCollision modifies the positions exactly when
1e-6 < distance² < (radius sum)² (the code skips near-coincidence up to
squared distance 1e-6, not only exact coincidence); in that case each
particle is displaced by half the overlap along the unit
center-to-center normal, the centers end exactly at distance radius
sum, and otherwise both particles are unchanged. -/
theorem C2_resolve_characterization (p1 p2 : Particle ℝ) :
    (1/1000000 < dist2R p1 p2 ∧ dist2R p1 p2 < minDistR p1 p2 * minDistR p1 p2 →
      ((resolveCollision p1 p2).1.x = p1.x - (p2.x - p1.x) / Real.sqrt (dist2R p1 p2) *
          ((minDistR p1 p2 - Real.sqrt (dist2R p1 p2)) / 2) ∧
       (resolveCollision p1 p2).1.y = p1.y - (p2.y - p1.y) / Real.sqrt (dist2R p1 p2) *
          ((minDistR p1 p2 - Real.sqrt (dist2R p1 p2)) / 2) ∧
       (resolveCollision p1 p2).2.x = p2.x + (p2.x - p1.x) / Real.sqrt (dist2R p1 p2) *
          ((minDistR p1 p2 - Real.sqrt (dist2R p1 p2)) / 2) ∧
       (resolveCollision p1 p2).2.y = p2.y + (p2.y - p1.y) / Real.sqrt (dist2R p1 p2) *
          ((minDistR p1 p2 - Real.sqrt (dist2R p1 p2)) / 2)) ∧
      dist2R (resolveCollision p1 p2).1 (resolveCollision p1 p2).2 =
        minDistR p1 p2 * minDistR p1 p2 ∧
      ((resolveCollision p1 p2).1.x - p1.x) * ((resolveCollision p1 p2).1.x - p1.x) +
          ((resolveCollision p1 p2).1.y - p1.y) * ((resolveCollision p1 p2).1.y - p1.y) =
        (minDistR p1 p2 - Real.sqrt (dist2R p1 p2)) *
          (minDistR p1 p2 - Real.sqrt (dist2R p1 p2)) / 4 ∧
      ((resolveCollision p1 p2).2.x - p2.x) * ((resolveCollision p1 p2).2.x - p2.x) +
          ((resolveCollision p1 p2).2.y - p2.y) * ((resolveCollision p1 p2).2.y - p2.y) =
        (minDistR p1 p2 - Real.sqrt (dist2R p1 p2)) *
          (minDistR p1 p2 - Real.sqrt (dist2R p1 p2)) / 4 ∧
      resolveCollision p1 p2 ≠ (p1, p2)) ∧
    (¬ (1/1000000 < dist2R p1 p2 ∧ dist2R p1 p2 < minDistR p1 p2 * minDistR p1 p2) →
      resolveCollision p1 p2 = (p1, p2)) := by
  constructor
  · intro h
    have hcond : dist2R p1 p2 < minDistR p1 p2 * minDistR p1 p2 ∧
        dist2R p1 p2 > 1/1000000 := ⟨h.2, h.1⟩
    have hres := resolveCollision_pos p1 p2 hcond
    have hd2 : 0 < dist2R p1 p2 := lt_trans (by norm_num) h.1
    have hspos : 0 < Real.sqrt (dist2R p1 p2) := Real.sqrt_pos.mpr hd2
    have hsne : Real.sqrt (dist2R p1 p2) ≠ 0 := ne_of_gt hspos
    have hsq : Real.sqrt (dist2R p1 p2) * Real.sqrt (dist2R p1 p2) = dist2R p1 p2 :=
      Real.mul_self_sqrt (le_of_lt hd2)
    have hd2eq : dist2R p1 p2 =
        (p2.x - p1.x) * (p2.x - p1.x) + (p2.y - p1.y) * (p2.y - p1.y) := rfl
    have hsq2 : Real.sqrt (dist2R p1 p2) * Real.sqrt (dist2R p1 p2) =
        (p2.x - p1.x) * (p2.x - p1.x) + (p2.y - p1.y) * (p2.y - p1.y) := by
      rw [hsq, hd2eq]
    have hov : minDistR p1 p2 - Real.sqrt (dist2R p1 p2) ≠ 0 := by
      intro h0
      have hms : minDistR p1 p2 = Real.sqrt (dist2R p1 p2) := by linarith
      rw [hms, hsq] at hcond
      exact lt_irrefl _ hcond.1
    have hx1 : (resolveCollision p1 p2).1.x = p1.x -
        (p2.x - p1.x) / Real.sqrt (dist2R p1 p2) *
          ((minDistR p1 p2 - Real.sqrt (dist2R p1 p2)) / 2) := by
      rw [hres]; simp only; ring
    have hy1 : (resolveCollision p1 p2).1.y = p1.y -
        (p2.y - p1.y) / Real.sqrt (dist2R p1 p2) *
          ((minDistR p1 p2 - Real.sqrt (dist2R p1 p2)) / 2) := by
      rw [hres]; simp only; ring
    have hx2 : (resolveCollision p1 p2).2.x = p2.x +
        (p2.x - p1.x) / Real.sqrt (dist2R p1 p2) *
          ((minDistR p1 p2 - Real.sqrt (dist2R p1 p2)) / 2) := by
      rw [hres]; simp only; ring
    have hy2 : (resolveCollision p1 p2).2.y = p2.y +
        (p2.y - p1.y) / Real.sqrt (dist2R p1 p2) *
          ((minDistR p1 p2 - Real.sqrt (dist2R p1 p2)) / 2) := by
      rw [hres]; simp only; ring
    refine ⟨⟨hx1, hy1, hx2, hy2⟩, ?_, ?_, ?_, ?_⟩
    · have hdx : (resolveCollision p1 p2).2.x - (resolveCollision p1 p2).1.x =
          (p2.x - p1.x) * minDistR p1 p2 / Real.sqrt (dist2R p1 p2) := by
        rw [hx2, hx1]; field_simp; ring
      have hdy : (resolveCollision p1 p2).2.y - (resolveCollision p1 p2).1.y =
          (p2.y - p1.y) * minDistR p1 p2 / Real.sqrt (dist2R p1 p2) := by
        rw [hy2, hy1]; field_simp; ring
      show ((resolveCollision p1 p2).2.x - (resolveCollision p1 p2).1.x) *
            ((resolveCollision p1 p2).2.x - (resolveCollision p1 p2).1.x) +
          ((resolveCollision p1 p2).2.y - (resolveCollision p1 p2).1.y) *
            ((resolveCollision p1 p2).2.y - (resolveCollision p1 p2).1.y) =
          minDistR p1 p2 * minDistR p1 p2
      rw [hdx, hdy, div_mul_div_comm, div_mul_div_comm, div_add_div_same, hsq2]
      rw [div_eq_iff (by rw [← hd2eq]; exact ne_of_gt hd2)]
      ring
    · have gdx : (resolveCollision p1 p2).1.x - p1.x =
          -((p2.x - p1.x) * (minDistR p1 p2 - Real.sqrt (dist2R p1 p2)) /
            (Real.sqrt (dist2R p1 p2) * 2)) := by
        rw [hx1]; ring
      have gdy : (resolveCollision p1 p2).1.y - p1.y =
          -((p2.y - p1.y) * (minDistR p1 p2 - Real.sqrt (dist2R p1 p2)) /
            (Real.sqrt (dist2R p1 p2) * 2)) := by
        rw [hy1]; ring
      have hden : Real.sqrt (dist2R p1 p2) * 2 * (Real.sqrt (dist2R p1 p2) * 2) ≠ 0 := by
        positivity
      rw [gdx, gdy, neg_mul_neg, neg_mul_neg, div_mul_div_comm, div_mul_div_comm,
        div_add_div_same, div_eq_div_iff hden (by norm_num : (4:ℝ) ≠ 0)]
      linear_combination (-(4 * ((minDistR p1 p2 - Real.sqrt (dist2R p1 p2)) *
        (minDistR p1 p2 - Real.sqrt (dist2R p1 p2))))) * hsq2
    · have gdx : (resolveCollision p1 p2).2.x - p2.x =
          (p2.x - p1.x) * (minDistR p1 p2 - Real.sqrt (dist2R p1 p2)) /
            (Real.sqrt (dist2R p1 p2) * 2) := by
        rw [hx2]; ring
      have gdy : (resolveCollision p1 p2).2.y - p2.y =
          (p2.y - p1.y) * (minDistR p1 p2 - Real.sqrt (dist2R p1 p2)) /
            (Real.sqrt (dist2R p1 p2) * 2) := by
        rw [hy2]; ring
      have hden : Real.sqrt (dist2R p1 p2) * 2 * (Real.sqrt (dist2R p1 p2) * 2) ≠ 0 := by
        positivity
      rw [gdx, gdy, div_mul_div_comm, div_mul_div_comm,
        div_add_div_same, div_eq_div_iff hden (by norm_num : (4:ℝ) ≠ 0)]
      linear_combination (-(4 * ((minDistR p1 p2 - Real.sqrt (dist2R p1 p2)) *
        (minDistR p1 p2 - Real.sqrt (dist2R p1 p2))))) * hsq2
    · intro heq
      have hx := congrArg (fun z : Particle ℝ × Particle ℝ => z.1.x) heq
      have hy := congrArg (fun z : Particle ℝ × Particle ℝ => z.1.y) heq
      simp only at hx hy
      rw [hx1] at hx
      rw [hy1] at hy
      have hdx : p2.x - p1.x = 0 := by
        have h1 : (p2.x - p1.x) / Real.sqrt (dist2R p1 p2) *
            ((minDistR p1 p2 - Real.sqrt (dist2R p1 p2)) / 2) = 0 := by linarith
        rcases mul_eq_zero.mp h1 with h2 | h2
        · rcases div_eq_zero_iff.mp h2 with h3 | h3
          · exact h3
          · exact absurd h3 hsne
        · exact absurd (by linarith : minDistR p1 p2 - Real.sqrt (dist2R p1 p2) = 0) hov
      have hdy : p2.y - p1.y = 0 := by
        have h1 : (p2.y - p1.y) / Real.sqrt (dist2R p1 p2) *
            ((minDistR p1 p2 - Real.sqrt (dist2R p1 p2)) / 2) = 0 := by linarith
        rcases mul_eq_zero.mp h1 with h2 | h2
        · rcases div_eq_zero_iff.mp h2 with h3 | h3
          · exact h3
          · exact absurd h3 hsne
        · exact absurd (by linarith : minDistR p1 p2 - Real.sqrt (dist2R p1 p2) = 0) hov
      rw [hd2eq, hdx, hdy] at hd2
      norm_num at hd2
  · intro h
    apply resolveCollision_neg
    intro hc
    exact h ⟨hc.2, hc.1⟩

/-- Witness for C2, the spec's scenario: radius-5 particles at
(100,100) and (106,100) end at (98,100) and (108,100) after one
resolve call — each displaced 2 units along the x axis, ending exactly
at squared distance 100. -/
theorem C2_witness :
    (resolveCollision scenP1 scenP2).1.x = 98 ∧
    (resolveCollision scenP1 scenP2).1.y = 100 ∧
    (resolveCollision scenP1 scenP2).2.x = 108 ∧
    (resolveCollision scenP1 scenP2).2.y = 100 ∧
    ((resolveCollision scenP1 scenP2).2.x - (resolveCollision scenP1 scenP2).1.x) *
        ((resolveCollision scenP1 scenP2).2.x - (resolveCollision scenP1 scenP2).1.x) +
      ((resolveCollision scenP1 scenP2).2.y - (resolveCollision scenP1 scenP2).1.y) *
        ((resolveCollision scenP1 scenP2).2.y - (resolveCollision scenP1 scenP2).1.y) = 100 := by
  have hd2 : dist2R scenP1 scenP2 = 36 := by
    norm_num [dist2R, scenP1, scenP2, mkParticleR]
  have hmd : minDistR scenP1 scenP2 = 10 := by
    norm_num [minDistR, scenP1, scenP2, mkParticleR]
  have hs : Real.sqrt (dist2R scenP1 scenP2) = 6 := by
    rw [hd2, show (36:ℝ) = 6 ^ 2 by norm_num, Real.sqrt_sq (by norm_num : (0:ℝ) ≤ 6)]
  have hx1v : scenP1.x = 100 := by norm_num [scenP1, mkParticleR]
  have hy1v : scenP1.y = 100 := by norm_num [scenP1, mkParticleR]
  have hx2v : scenP2.x = 106 := by norm_num [scenP2, mkParticleR]
  have hy2v : scenP2.y = 100 := by norm_num [scenP2, mkParticleR]
  obtain ⟨⟨e1, e2, e3, e4⟩, e5, _, _, _⟩ :=
    (C2_resolve_characterization scenP1 scenP2).1
      (by rw [hd2, hmd]; norm_num)
  have r1 : (resolveCollision scenP1 scenP2).1.x = 98 := by
    rw [e1, hs, hmd, hx1v, hx2v]; norm_num
  have r2 : (resolveCollision scenP1 scenP2).1.y = 100 := by
    rw [e2, hs, hmd, hy1v, hy2v]; norm_num
  have r3 : (resolveCollision scenP1 scenP2).2.x = 108 := by
    rw [e3, hs, hmd, hx1v, hx2v]; norm_num
  have r4 : (resolveCollision scenP1 scenP2).2.y = 100 := by
    rw [e4, hs, hmd, hy1v, hy2v]; norm_num
  refine ⟨r1, r2, r3, r4, ?_⟩
  rw [r1, r2, r3, r4]
  norm_num

/-- Counterexample for C2 as stated: a pair with 0 < distance² <
(radius sum)² — overlapping and not exactly coincident — that
resolveCollision nevertheless leaves unchanged, because the code's
guard requires distance² > 1e-6, not distance² > 0. -/
theorem C2_counterexample :
    resolveCollision nearP1 nearP2 = (nearP1, nearP2) ∧
    0 < dist2R nearP1 nearP2 ∧
    dist2R nearP1 nearP2 < minDistR nearP1 nearP2 * minDistR nearP1 nearP2 := by
  have hd2 : dist2R nearP1 nearP2 = 1/4000000 := by
    norm_num [dist2R, nearP1, nearP2, mkParticleR]
  have hmd : minDistR nearP1 nearP2 = 10 := by
    norm_num [minDistR, nearP1, nearP2, mkParticleR]
  refine ⟨?_, by rw [hd2]; norm_num, by rw [hd2, hmd]; norm_num⟩
  apply resolveCollision_neg
  rw [hd2]
  norm_num

/-- The implicit velocity of setVelocity is exactly what was set,
scaled by dt. -/
theorem getVelocity_setVelocity (p : Particle ℚ) (vx vy dt : ℚ) :
    Particle.getVelocity (Particle.setVelocity p vx vy dt) = (vx * dt, vy * dt) := by
  simp [Particle.getVelocity, Particle.setVelocity]

/-- C3 (amended): a particle that crossed the left wall moving with
velocity (−v, 0) is clamped to x = radius, and its velocity is
reassigned through setVelocity with dt = 1 to
((v − (radius − x))·0.8, 0): the sign is flipped and the restitution
0.8 applied, but to the post-clamp implicit velocity — the approach
speed v reduced by the penetration depth radius − x — not to v itself;
the y component stays 0. -/
theorem C3_left_wall_reflection (width height v : ℚ) (p : Particle ℚ)
    (hcross : p.x - p.radius < 0)
    (hv : Particle.getVelocity p = (-v, 0))
    (hytop : p.radius ≤ p.y)
    (hybot : p.y + p.radius ≤ height) :
    wallCollide width height p =
      Particle.setVelocity { p with x := p.radius }
        ((v - (p.radius - p.x)) * (8/10)) 0 1 ∧
    (wallCollide width height p).x = p.radius ∧
    (wallCollide width height p).y = p.y ∧
    Particle.getVelocity (wallCollide width height p) =
      ((v - (p.radius - p.x)) * (8/10), 0) := by
  obtain ⟨px, py, pr, pc, ⟨l1, l2⟩, pa, pm⟩ := p
  simp only [Particle.getVelocity, Prod.mk.injEq] at hv
  obtain ⟨hva, hvb⟩ := hv
  have hl1 : l1 = px + v := by linarith
  have hl2 : l2 = py := by linarith
  have key : wallCollide width height ⟨px, py, pr, pc, (l1, l2), pa, pm⟩ =
      Particle.setVelocity ⟨pr, py, pr, pc, (l1, l2), pa, pm⟩
        ((v - (pr - px)) * (8/10)) 0 1 := by
    simp only [wallCollide, Particle.setVelocity, Particle.getVelocity]
    rw [if_pos hcross]
    rw [if_neg (not_lt.mpr (by linarith)), if_neg (not_lt.mpr (by linarith))]
    subst hl1 hl2
    simp only [Particle.mk.injEq, Prod.mk.injEq, and_true, true_and]
    constructor <;> ring
  refine ⟨key, ?_, ?_, ?_⟩
  · rw [key]; simp [Particle.setVelocity]
  · rw [key]; simp [Particle.setVelocity]
  · rw [key, getVelocity_setVelocity]
    simp

/-- Witness for C3 at the concrete crossing particle leftWallP, with
approach speed 10 against an 800 by 600 arena. -/
theorem C3_witness :
    wallCollide (800:ℚ) 600 leftWallP =
      Particle.setVelocity { leftWallP with x := leftWallP.radius }
        ((10 - (leftWallP.radius - leftWallP.x)) * (8/10)) 0 1 ∧
    (wallCollide (800:ℚ) 600 leftWallP).x = leftWallP.radius ∧
    (wallCollide (800:ℚ) 600 leftWallP).y = leftWallP.y ∧
    Particle.getVelocity (wallCollide (800:ℚ) 600 leftWallP) =
      ((10 - (leftWallP.radius - leftWallP.x)) * (8/10), 0) :=
  C3_left_wall_reflection 800 600 10 leftWallP
    (by norm_num [leftWallP])
    (by norm_num [Particle.getVelocity, leftWallP])
    (by norm_num [leftWallP])
    (by norm_num [leftWallP])

/-- Counterexample for C3 as stated: leftWallP crosses the left wall
with velocity (−10, 0), yet after wall resolution its velocity is
(28/5, 0) = (5.6, 0), not (10·0.8, 0) = (8, 0): the code reflects the
post-clamp velocity, which the clamp has reduced by the penetration
depth. -/
theorem C3_counterexample :
    Particle.getVelocity leftWallP = (-10, 0) ∧
    leftWallP.x - leftWallP.radius < 0 ∧
    Particle.getVelocity (wallCollide (800:ℚ) 600 leftWallP) = (28/5, 0) ∧
    (28 : ℚ)/5 ≠ 10 * (8/10) := by
  refine ⟨by norm_num [Particle.getVelocity, leftWallP], by norm_num [leftWallP], ?_, by norm_num⟩
  norm_num [wallCollide, Particle.getVelocity, Particle.setVelocity, leftWallP]

/-- After wall resolution a single particle whose diameter fits the
arena lies within [radius, width − radius] × [radius, height − radius];
the radius itself is untouched. -/
theorem wallCollide_bounds (w h : ℚ) (p : Particle ℚ)
    (hw : 2 * p.radius ≤ w) (hh : 2 * p.radius ≤ h) :
    (wallCollide w h p).radius = p.radius ∧
    p.radius ≤ (wallCollide w h p).x ∧ (wallCollide w h p).x ≤ w - p.radius ∧
    p.radius ≤ (wallCollide w h p).y ∧ (wallCollide w h p).y ≤ h - p.radius := by
  obtain ⟨px, py, pr, pc, ⟨l1, l2⟩, pa, pm⟩ := p
  simp only at hw hh
  simp only [wallCollide, Particle.setVelocity, Particle.getVelocity]
  split_ifs <;>
    refine ⟨rfl, ?_, ?_, ?_, ?_⟩ <;> simp only <;> linarith

/-- C8 (amended): provided each particle's diameter fits inside the
arena (2·radius ≤ width and 2·radius ≤ height), after wall resolution
every particle of the collection satisfies radius ≤ x ≤ width − radius
and radius ≤ y ≤ height − radius. -/
theorem C8_wall_containment (w h : ℚ) (ps : List (Particle ℚ))
    (hfit : ∀ p ∈ ps, 2 * p.radius ≤ w ∧ 2 * p.radius ≤ h) :
    ∀ q ∈ wallCollisions w h ps,
      q.radius ≤ q.x ∧ q.x ≤ w - q.radius ∧ q.radius ≤ q.y ∧ q.y ≤ h - q.radius := by
  intro q hq
  rw [wallCollisions, List.mem_map] at hq
  obtain ⟨p, hp, rfl⟩ := hq
  obtain ⟨hr, h1, h2, h3, h4⟩ := wallCollide_bounds w h p (hfit p hp).1 (hfit p hp).2
  rw [hr]
  exact ⟨h1, h2, h3, h4⟩

/-- Witness for C8 on a one-particle collection in a 100 by 100 arena. -/
theorem C8_witness :
    (wallCollide (100:ℚ) 100 (mkParticleQ 50 50 5)).radius ≤
        (wallCollide (100:ℚ) 100 (mkParticleQ 50 50 5)).x ∧
    (wallCollide (100:ℚ) 100 (mkParticleQ 50 50 5)).x ≤
        100 - (wallCollide (100:ℚ) 100 (mkParticleQ 50 50 5)).radius ∧
    (wallCollide (100:ℚ) 100 (mkParticleQ 50 50 5)).radius ≤
        (wallCollide (100:ℚ) 100 (mkParticleQ 50 50 5)).y ∧
    (wallCollide (100:ℚ) 100 (mkParticleQ 50 50 5)).y ≤
        100 - (wallCollide (100:ℚ) 100 (mkParticleQ 50 50 5)).radius :=
  C8_wall_containment 100 100 [mkParticleQ 50 50 5]
    (by intro p hp; rw [List.mem_singleton] at hp; subst hp; norm_num [mkParticleQ])
    (wallCollide (100:ℚ) 100 (mkParticleQ 50 50 5))
    (by rw [wallCollisions]; exact List.mem_map_of_mem _ (List.mem_singleton.mpr rfl))

/-- Counterexample for C8 as stated: a particle of radius 8 at x = 1 in
a 10 by 10 arena is clamped to x = 8 by the left-wall branch, which
violates x ≤ width − radius = 2; the claimed containment does not hold
without assuming the particle fits the arena. -/
theorem C8_counterexample :
    ¬ (∀ q ∈ wallCollisions (10:ℚ) 10 [bigP],
        q.radius ≤ q.x ∧ q.x ≤ 10 - q.radius ∧ q.radius ≤ q.y ∧ q.y ≤ 10 - q.radius) := by
  intro hall
  have hmem : wallCollide (10:ℚ) 10 bigP ∈ wallCollisions (10:ℚ) 10 [bigP] := by
    rw [wallCollisions]
    exact List.mem_map_of_mem _ (List.mem_singleton.mpr rfl)
  have hb := hall _ hmem
  norm_num [wallCollide, Particle.setVelocity, Particle.getVelocity, bigP] at hb

/-- Counting inside a filtered list. -/
theorem count_filter_pq (a : PQ) (l : List PQ) (f : PQ → Bool) :
    List.count a (l.filter f) = if f a then List.count a l else 0 := by
  induction l with
  | nil => simp
  | cons b t ih => by_cases hb : f b <;> by_cases hba : b = a <;>
      simp_all [List.count_cons, List.filter]

/-- Two rectangles both containing a common integer point overlap. -/
theorem memb_overlap {a b : Rect} {px py : ℤ}
    (ha : memb a px py = true) (hb : memb b px py = true) :
    collideRect a b = true := by
  simp only [memb, collideRect, Bool.and_eq_true, decide_eq_true_eq,
    Bool.not_eq_true', decide_eq_false_iff_not] at ha hb ⊢
  omega

/-- Insertion with no remaining budget returns the tree unchanged. -/
theorem insertF_zero (b : Rect) (cap : ℕ) (t : QuadTree) (p : PQ) :
    insertF 0 b cap t p = (false, t) := rfl

/-- Insertion of a point outside the node's rectangle is rejected
unchanged. -/
theorem insertF_out (fuel : ℕ) (b : Rect) (cap : ℕ) (t : QuadTree) (p : PQ)
    (h : colP b p = false) : insertF fuel b cap t p = (false, t) := by
  cases fuel <;> simp [insertF, h]

/-- Insertion into a leaf with room appends the particle. -/
theorem insertF_leaf_room (fuel : ℕ) (b : Rect) (cap : ℕ) (ps : List PQ) (p : PQ)
    (h : colP b p = true) (hlen : ps.length < cap) :
    insertF (fuel + 1) b cap (.leaf ps) p = (true, .leaf (ps ++ [p])) := by
  simp [insertF, h, hlen]

/-- Insertion into a full leaf subdivides, redistributes the held
particles into the fresh children and then tries the new particle on
the four children in order. -/
theorem insertF_leaf_full (fuel : ℕ) (b : Rect) (cap : ℕ) (ps : List PQ) (p : PQ)
    (h : colP b p = true) (hlen : ¬ ps.length < cap) :
    insertF (fuel + 1) b cap (.leaf ps) p =
      ((tryChildren (insertF fuel (neRect b) cap) (insertF fuel (nwRect b) cap)
          (insertF fuel (seRect b) cap) (insertF fuel (swRect b) cap)
          (distribute (insertF fuel (neRect b) cap) (insertF fuel (nwRect b) cap)
            (insertF fuel (seRect b) cap) (insertF fuel (swRect b) cap)
            ⟨.leaf [], .leaf [], .leaf [], .leaf []⟩ ps).2 p).1,
       .node
         (distribute (insertF fuel (neRect b) cap) (insertF fuel (nwRect b) cap)
            (insertF fuel (seRect b) cap) (insertF fuel (swRect b) cap)
            ⟨.leaf [], .leaf [], .leaf [], .leaf []⟩ ps).1
         (tryChildren (insertF fuel (neRect b) cap) (insertF fuel (nwRect b) cap)
            (insertF fuel (seRect b) cap) (insertF fuel (swRect b) cap)
            (distribute (insertF fuel (neRect b) cap) (insertF fuel (nwRect b) cap)
              (insertF fuel (seRect b) cap) (insertF fuel (swRect b) cap)
              ⟨.leaf [], .leaf [], .leaf [], .leaf []⟩ ps).2 p).2.ne
         (tryChildren (insertF fuel (neRect b) cap) (insertF fuel (nwRect b) cap)
            (insertF fuel (seRect b) cap) (insertF fuel (swRect b) cap)
            (distribute (insertF fuel (neRect b) cap) (insertF fuel (nwRect b) cap)
              (insertF fuel (seRect b) cap) (insertF fuel (swRect b) cap)
              ⟨.leaf [], .leaf [], .leaf [], .leaf []⟩ ps).2 p).2.nw
         (tryChildren (insertF fuel (neRect b) cap) (insertF fuel (nwRect b) cap)
            (insertF fuel (seRect b) cap) (insertF fuel (swRect b) cap)
            (distribute (insertF fuel (neRect b) cap) (insertF fuel (nwRect b) cap)
              (insertF fuel (seRect b) cap) (insertF fuel (swRect b) cap)
              ⟨.leaf [], .leaf [], .leaf [], .leaf []⟩ ps).2 p).2.se
         (tryChildren (insertF fuel (neRect b) cap) (insertF fuel (nwRect b) cap)
            (insertF fuel (seRect b) cap) (insertF fuel (swRect b) cap)
            (distribute (insertF fuel (neRect b) cap) (insertF fuel (nwRect b) cap)
              (insertF fuel (seRect b) cap) (insertF fuel (swRect b) cap)
              ⟨.leaf [], .leaf [], .leaf [], .leaf []⟩ ps).2 p).2.sw) := by
  simp [insertF, h, hlen]

/-- Insertion at a divided node tries the four children in order. -/
theorem insertF_node (fuel : ℕ) (b : Rect) (cap : ℕ) (ps : List PQ)
    (ne nw se sw : QuadTree) (p : PQ) (h : colP b p = true) :
    insertF (fuel + 1) b cap (.node ps ne nw se sw) p =
      ((tryChildren (insertF fuel (neRect b) cap) (insertF fuel (nwRect b) cap)
          (insertF fuel (seRect b) cap) (insertF fuel (swRect b) cap) ⟨ne, nw, se, sw⟩ p).1,
       .node ps
         (tryChildren (insertF fuel (neRect b) cap) (insertF fuel (nwRect b) cap)
            (insertF fuel (seRect b) cap) (insertF fuel (swRect b) cap) ⟨ne, nw, se, sw⟩ p).2.ne
         (tryChildren (insertF fuel (neRect b) cap) (insertF fuel (nwRect b) cap)
            (insertF fuel (seRect b) cap) (insertF fuel (swRect b) cap) ⟨ne, nw, se, sw⟩ p).2.nw
         (tryChildren (insertF fuel (neRect b) cap) (insertF fuel (nwRect b) cap)
            (insertF fuel (seRect b) cap) (insertF fuel (swRect b) cap) ⟨ne, nw, se, sw⟩ p).2.se
         (tryChildren (insertF fuel (neRect b) cap) (insertF fuel (nwRect b) cap)
            (insertF fuel (seRect b) cap) (insertF fuel (swRect b) cap) ⟨ne, nw, se, sw⟩ p).2.sw) := by
  simp [insertF, h]

/-- The particles of a node built from a bundle of four children. -/
theorem allParticles_node (l : List PQ) (c : Four) :
    allParticles (QuadTree.node l c.ne c.nw c.se c.sw) = l ++ allFour c := by
  cases c
  simp [allParticles, allFour]

/-- Count conservation for one try-the-four-children pass. -/
theorem tryChildren_count {fNE fNW fSE fSW : QuadTree → PQ → Bool × QuadTree}
    (h1 : CountSpec fNE) (h2 : CountSpec fNW) (h3 : CountSpec fSE) (h4 : CountSpec fSW)
    (c : Four) (p q : PQ) :
    List.count q (allFour (tryChildren fNE fNW fSE fSW c p).2) =
      List.count q (allFour c) +
        (if (tryChildren fNE fNW fSE fSW c p).1 = true ∧ q = p then 1 else 0) := by
  have e1 := h1 c.ne p q
  have e2 := h2 c.nw p q
  have e3 := h3 c.se p q
  have e4 := h4 c.sw p q
  simp only [tryChildren]
  by_cases b1 : (fNE c.ne p).1 = true <;>
    by_cases b2 : (fNW c.nw p).1 = true <;>
      by_cases b3 : (fSE c.se p).1 = true <;>
        by_cases b4 : (fSW c.sw p).1 = true <;>
          by_cases hqp : q = p <;>
            simp_all [allFour, List.count_append] <;> omega

/-- Count conservation for the redistribution pass of subdivide: every
redistributed particle ends either in a child or in the kept list. -/
theorem distribute_count {fNE fNW fSE fSW : QuadTree → PQ → Bool × QuadTree}
    (h1 : CountSpec fNE) (h2 : CountSpec fNW) (h3 : CountSpec fSE) (h4 : CountSpec fSW) :
    ∀ (qs : List PQ) (c : Four) (q : PQ),
      List.count q (distribute fNE fNW fSE fSW c qs).1 +
        List.count q (allFour (distribute fNE fNW fSE fSW c qs).2) =
      List.count q qs + List.count q (allFour c) := by
  intro qs
  induction qs with
  | nil => intro c q; simp [distribute]
  | cons a rest ih =>
    intro c q
    have ht := tryChildren_count h1 h2 h3 h4 c a q
    have hr := ih (tryChildren fNE fNW fSE fSW c a).2 q
    simp only [distribute]
    rw [List.count_cons]
    simp only [beq_iff_eq]
    by_cases hok : (tryChildren fNE fNW fSE fSW c a).1 = true
    · rw [if_pos hok]
      by_cases hqa : q = a
      · rw [if_pos ⟨hok, hqa⟩] at ht
        rw [if_pos hqa.symm]
        omega
      · rw [if_neg (by simp [hqa])] at ht
        rw [if_neg (fun hh => hqa hh.symm)]
        omega
    · rw [if_neg hok]
      rw [if_neg (by simp [hok])] at ht
      rw [List.count_cons]
      simp only [beq_iff_eq]
      by_cases hqa : q = a
      · rw [if_pos hqa.symm]
        omega
      · rw [if_neg (fun hh => hqa hh.symm)]
        omega

/-- Count conservation for budgeted insertion, at every budget. -/
theorem insertF_count (fuel : ℕ) : ∀ (b : Rect) (cap : ℕ), CountSpec (insertF fuel b cap) := by
  induction fuel with
  | zero =>
    intro b cap t p q
    simp [insertF_zero]
  | succ n ih =>
    intro b cap t p q
    by_cases hc : colP b p = true
    · cases t with
      | leaf ps =>
        by_cases hlen : ps.length < cap
        · rw [insertF_leaf_room n b cap ps p hc hlen]
          by_cases hqp : q = p <;>
            simp_all [allParticles, List.count_append, List.count_cons]
        · rw [insertF_leaf_full n b cap ps p hc hlen]
          dsimp only
          have hkc := distribute_count (ih (neRect b) cap) (ih (nwRect b) cap)
            (ih (seRect b) cap) (ih (swRect b) cap) ps
            ⟨.leaf [], .leaf [], .leaf [], .leaf []⟩ q
          have hrc := tryChildren_count (ih (neRect b) cap) (ih (nwRect b) cap)
            (ih (seRect b) cap) (ih (swRect b) cap)
            (distribute (insertF n (neRect b) cap) (insertF n (nwRect b) cap)
              (insertF n (seRect b) cap) (insertF n (swRect b) cap)
              ⟨.leaf [], .leaf [], .leaf [], .leaf []⟩ ps).2 p q
          have hfresh : List.count q
              (allFour ⟨.leaf [], .leaf [], .leaf [], .leaf []⟩) = 0 := rfl
          have hleaf : allParticles (QuadTree.leaf ps) = ps := rfl
          rw [allParticles_node, List.count_append, hleaf]
          rw [hfresh] at hkc
          omega
      | node ps ne nw se sw =>
        rw [insertF_node n b cap ps ne nw se sw p hc]
        dsimp only
        have hrc := tryChildren_count (ih (neRect b) cap) (ih (nwRect b) cap)
          (ih (seRect b) cap) (ih (swRect b) cap) ⟨ne, nw, se, sw⟩ p q
        have hnode : allParticles (QuadTree.node ps ne nw se sw) =
            ps ++ allFour ⟨ne, nw, se, sw⟩ := allParticles_node ps ⟨ne, nw, se, sw⟩
        rw [allParticles_node, List.count_append, hnode, List.count_append]
        omega
    · rw [insertF_out (n+1) b cap t p (by simpa using hc)]
      simp

/-- A particle present after an insertion was either already present or
is the inserted one. -/
theorem countSpec_mem {f : QuadTree → PQ → Bool × QuadTree} (hf : CountSpec f)
    {t : QuadTree} {p q : PQ} (hq : q ∈ allParticles (f t p).2) :
    q ∈ allParticles t ∨ q = p := by
  by_cases hqp : q = p
  · exact Or.inr hqp
  · left
    have h := hf t p q
    rw [if_neg (by simp [hqp])] at h
    have hpos := List.count_pos_iff.mpr hq
    rw [h] at hpos
    exact List.count_pos_iff.mp (by omega)

/-- Inserting a particle lying in a rectangle keeps every particle of
the subtree inside that rectangle. -/
theorem allIn_child {f : QuadTree → PQ → Bool × QuadTree} (hf : CountSpec f)
    {b : Rect} {t : QuadTree} {p : PQ} (hp : colP b p = true)
    (hall : ∀ q ∈ allParticles t, colP b q = true) :
    ∀ q ∈ allParticles (f t p).2, colP b q = true := by
  intro q hq
  rcases countSpec_mem hf hq with h | h
  · exact hall q h
  · rw [h]; exact hp

/-- One try-the-four-children pass preserves the geometric invariant of
each child and keeps all subtree particles inside the parent. -/
theorem tryChildren_inv {fNE fNW fSE fSW : QuadTree → PQ → Bool × QuadTree} {b : Rect}
    (c1 : CountSpec fNE) (c2 : CountSpec fNW) (c3 : CountSpec fSE) (c4 : CountSpec fSW)
    (i1 : ∀ t p, inv (neRect b) t = true → inv (neRect b) (fNE t p).2 = true)
    (i2 : ∀ t p, inv (nwRect b) t = true → inv (nwRect b) (fNW t p).2 = true)
    (i3 : ∀ t p, inv (seRect b) t = true → inv (seRect b) (fSE t p).2 = true)
    (i4 : ∀ t p, inv (swRect b) t = true → inv (swRect b) (fSW t p).2 = true)
    (c : Four) (p : PQ) (hp : colP b p = true)
    (a1 : ∀ q ∈ allParticles c.ne, colP b q = true)
    (a2 : ∀ q ∈ allParticles c.nw, colP b q = true)
    (a3 : ∀ q ∈ allParticles c.se, colP b q = true)
    (a4 : ∀ q ∈ allParticles c.sw, colP b q = true)
    (j1 : inv (neRect b) c.ne = true) (j2 : inv (nwRect b) c.nw = true)
    (j3 : inv (seRect b) c.se = true) (j4 : inv (swRect b) c.sw = true) :
    (∀ q ∈ allParticles (tryChildren fNE fNW fSE fSW c p).2.ne, colP b q = true) ∧
    (∀ q ∈ allParticles (tryChildren fNE fNW fSE fSW c p).2.nw, colP b q = true) ∧
    (∀ q ∈ allParticles (tryChildren fNE fNW fSE fSW c p).2.se, colP b q = true) ∧
    (∀ q ∈ allParticles (tryChildren fNE fNW fSE fSW c p).2.sw, colP b q = true) ∧
    inv (neRect b) (tryChildren fNE fNW fSE fSW c p).2.ne = true ∧
    inv (nwRect b) (tryChildren fNE fNW fSE fSW c p).2.nw = true ∧
    inv (seRect b) (tryChildren fNE fNW fSE fSW c p).2.se = true ∧
    inv (swRect b) (tryChildren fNE fNW fSE fSW c p).2.sw = true := by
  simp only [tryChildren]
  split_ifs <;>
    refine ⟨?_, ?_, ?_, ?_, ?_, ?_, ?_, ?_⟩ <;>
      first
        | exact allIn_child c1 hp a1
        | exact allIn_child c2 hp a2
        | exact allIn_child c3 hp a3
        | exact allIn_child c4 hp a4
        | exact a1
        | exact a2
        | exact a3
        | exact a4
        | exact i1 _ _ j1
        | exact i2 _ _ j2
        | exact i3 _ _ j3
        | exact i4 _ _ j4
        | exact j1
        | exact j2
        | exact j3
        | exact j4

/-- Particles kept by the redistribution pass come from the input
list. -/
theorem distribute_kept_subset {fNE fNW fSE fSW : QuadTree → PQ → Bool × QuadTree} :
    ∀ (qs : List PQ) (c : Four) (q : PQ),
      q ∈ (distribute fNE fNW fSE fSW c qs).1 → q ∈ qs := by
  intro qs
  induction qs with
  | nil => intro c q hq; simp [distribute] at hq
  | cons a rest ih =>
    intro c q hq
    simp only [distribute] at hq
    by_cases hok : (tryChildren fNE fNW fSE fSW c a).1 = true
    · rw [if_pos hok] at hq
      exact List.mem_cons_of_mem _ (ih _ _ hq)
    · rw [if_neg hok] at hq
      rcases List.mem_cons.mp hq with h | h
      · rw [h]; exact List.mem_cons_self _ _
      · exact List.mem_cons_of_mem _ (ih _ _ h)

/-- The redistribution pass preserves the geometric invariant of the
four children and keeps their subtree particles inside the parent. -/
theorem distribute_inv {fNE fNW fSE fSW : QuadTree → PQ → Bool × QuadTree} {b : Rect}
    (c1 : CountSpec fNE) (c2 : CountSpec fNW) (c3 : CountSpec fSE) (c4 : CountSpec fSW)
    (i1 : ∀ t p, inv (neRect b) t = true → inv (neRect b) (fNE t p).2 = true)
    (i2 : ∀ t p, inv (nwRect b) t = true → inv (nwRect b) (fNW t p).2 = true)
    (i3 : ∀ t p, inv (seRect b) t = true → inv (seRect b) (fSE t p).2 = true)
    (i4 : ∀ t p, inv (swRect b) t = true → inv (swRect b) (fSW t p).2 = true) :
    ∀ (qs : List PQ) (c : Four),
      (∀ q ∈ qs, colP b q = true) →
      (∀ q ∈ allParticles c.ne, colP b q = true) →
      (∀ q ∈ allParticles c.nw, colP b q = true) →
      (∀ q ∈ allParticles c.se, colP b q = true) →
      (∀ q ∈ allParticles c.sw, colP b q = true) →
      inv (neRect b) c.ne = true → inv (nwRect b) c.nw = true →
      inv (seRect b) c.se = true → inv (swRect b) c.sw = true →
      (∀ q ∈ allParticles (distribute fNE fNW fSE fSW c qs).2.ne, colP b q = true) ∧
      (∀ q ∈ allParticles (distribute fNE fNW fSE fSW c qs).2.nw, colP b q = true) ∧
      (∀ q ∈ allParticles (distribute fNE fNW fSE fSW c qs).2.se, colP b q = true) ∧
      (∀ q ∈ allParticles (distribute fNE fNW fSE fSW c qs).2.sw, colP b q = true) ∧
      inv (neRect b) (distribute fNE fNW fSE fSW c qs).2.ne = true ∧
      inv (nwRect b) (distribute fNE fNW fSE fSW c qs).2.nw = true ∧
      inv (seRect b) (distribute fNE fNW fSE fSW c qs).2.se = true ∧
      inv (swRect b) (distribute fNE fNW fSE fSW c qs).2.sw = true := by
  intro qs
  induction qs with
  | nil =>
    intro c hqs a1 a2 a3 a4 j1 j2 j3 j4
    exact ⟨a1, a2, a3, a4, j1, j2, j3, j4⟩
  | cons a rest ih =>
    intro c hqs a1 a2 a3 a4 j1 j2 j3 j4
    have hpa : colP b a = true := hqs a (List.mem_cons_self _ _)
    have hrest : ∀ q ∈ rest, colP b q = true := fun q hq => hqs q (List.mem_cons_of_mem _ hq)
    obtain ⟨t1, t2, t3, t4, u1, u2, u3, u4⟩ :=
      tryChildren_inv c1 c2 c3 c4 i1 i2 i3 i4 c a hpa a1 a2 a3 a4 j1 j2 j3 j4
    exact ih (tryChildren fNE fNW fSE fSW c a).2 hrest t1 t2 t3 t4 u1 u2 u3 u4

/-- Budgeted insertion preserves the geometric invariant. -/
theorem insertF_inv (fuel : ℕ) : ∀ (b : Rect) (cap : ℕ) (t : QuadTree) (p : PQ),
    inv b t = true → inv b ((insertF fuel b cap) t p).2 = true := by
  induction fuel with
  | zero => intro b cap t p h; simpa [insertF_zero] using h
  | succ n ih =>
    intro b cap t p hinv
    by_cases hc : colP b p = true
    · cases t with
      | leaf ps =>
        have hps : ∀ q ∈ ps, colP b q = true := by
          simpa [inv, List.all_eq_true] using hinv
        by_cases hlen : ps.length < cap
        · rw [insertF_leaf_room n b cap ps p hc hlen]
          simp only [inv, List.all_eq_true]
          intro q hq
          rcases List.mem_append.mp hq with h | h
          · exact hps q h
          · rw [List.mem_singleton.mp h]; exact hc
        · rw [insertF_leaf_full n b cap ps p hc hlen]
          dsimp only
          have hempty : ∀ q ∈ allParticles (QuadTree.leaf [] : QuadTree), colP b q = true := by
            intro q hq; simp [allParticles] at hq
          have hinvempty : ∀ r : Rect, inv r (QuadTree.leaf [] : QuadTree) = true := by
            intro r; simp [inv]
          obtain ⟨d1, d2, d3, d4, e1, e2, e3, e4⟩ :=
            distribute_inv (insertF_count n (neRect b) cap) (insertF_count n (nwRect b) cap)
              (insertF_count n (seRect b) cap) (insertF_count n (swRect b) cap)
              (fun t p => ih (neRect b) cap t p) (fun t p => ih (nwRect b) cap t p)
              (fun t p => ih (seRect b) cap t p) (fun t p => ih (swRect b) cap t p)
              ps ⟨.leaf [], .leaf [], .leaf [], .leaf []⟩ hps
              hempty hempty hempty hempty
              (hinvempty _) (hinvempty _) (hinvempty _) (hinvempty _)
          obtain ⟨t1, t2, t3, t4, u1, u2, u3, u4⟩ :=
            tryChildren_inv (insertF_count n (neRect b) cap) (insertF_count n (nwRect b) cap)
              (insertF_count n (seRect b) cap) (insertF_count n (swRect b) cap)
              (fun t p => ih (neRect b) cap t p) (fun t p => ih (nwRect b) cap t p)
              (fun t p => ih (seRect b) cap t p) (fun t p => ih (swRect b) cap t p)
              (distribute (insertF n (neRect b) cap) (insertF n (nwRect b) cap)
                (insertF n (seRect b) cap) (insertF n (swRect b) cap)
                ⟨.leaf [], .leaf [], .leaf [], .leaf []⟩ ps).2 p
              hc d1 d2 d3 d4 e1 e2 e3 e4
          simp only [inv, List.all_eq_true, Bool.and_eq_true]
          refine ⟨⟨⟨⟨?_, u1⟩, u2⟩, u3⟩, u4⟩
          intro q hq
          rcases List.mem_append.mp hq with h | h
          rotate_left
          · exact t4 q h
          rcases List.mem_append.mp h with h | h
          rotate_left
          · exact t3 q h
          rcases List.mem_append.mp h with h | h
          rotate_left
          · exact t2 q h
          rcases List.mem_append.mp h with h | h
          rotate_left
          · exact t1 q h
          · exact hps q (distribute_kept_subset ps _ q h)
      | node ps ne nw se sw =>
        rw [insertF_node n b cap ps ne nw se sw p hc]
        dsimp only
        simp only [inv, List.all_eq_true, Bool.and_eq_true] at hinv
        obtain ⟨⟨⟨⟨hall, j1⟩, j2⟩, j3⟩, j4⟩ := hinv
        have a1 : ∀ q ∈ allParticles ne, colP b q = true := by
          intro q hq
          exact hall q (by simp [List.mem_append]; tauto)
        have a2 : ∀ q ∈ allParticles nw, colP b q = true := by
          intro q hq
          exact hall q (by simp [List.mem_append]; tauto)
        have a3 : ∀ q ∈ allParticles se, colP b q = true := by
          intro q hq
          exact hall q (by simp [List.mem_append]; tauto)
        have a4 : ∀ q ∈ allParticles sw, colP b q = true := by
          intro q hq
          exact hall q (by simp [List.mem_append]; tauto)
        have hpsonly : ∀ q ∈ ps, colP b q = true := by
          intro q hq
          exact hall q (by simp [List.mem_append]; tauto)
        obtain ⟨t1, t2, t3, t4, u1, u2, u3, u4⟩ :=
          tryChildren_inv
            (insertF_count n (neRect b) cap) (insertF_count n (nwRect b) cap)
            (insertF_count n (seRect b) cap) (insertF_count n (swRect b) cap)
            (fun t p => ih (neRect b) cap t p) (fun t p => ih (nwRect b) cap t p)
            (fun t p => ih (seRect b) cap t p) (fun t p => ih (swRect b) cap t p)
            ⟨ne, nw, se, sw⟩ p
            hc a1 a2 a3 a4 j1 j2 j3 j4
        simp only [inv, List.all_eq_true, Bool.and_eq_true]
        refine ⟨⟨⟨⟨?_, u1⟩, u2⟩, u3⟩, u4⟩
        intro q hq
        rcases List.mem_append.mp hq with h | h
        rotate_left
        · exact t4 q h
        rcases List.mem_append.mp h with h | h
        rotate_left
        · exact t3 q h
        rcases List.mem_append.mp h with h | h
        rotate_left
        · exact t2 q h
        rcases List.mem_append.mp h with h | h
        rotate_left
        · exact t1 q h
        · exact hpsonly q h
    · rw [insertF_out (n+1) b cap t p (by simpa using hc)]
      exact hinv

/-- Counting occurrences in a query result: under the geometric
invariant the query adds to the accumulator exactly the stored
occurrences of a particle whose point lies in the range, and nothing
when the point lies outside the range. -/
theorem query_count (range : Rect) (p : PQ) :
    ∀ (t : QuadTree) (b : Rect) (found : List PQ), inv b t = true →
      List.count p (query b t range found) =
        List.count p found +
          (if collidesPt range p.x p.y = true then List.count p (allParticles t) else 0) := by
  intro t
  induction t with
  | leaf ps =>
    intro b found hinv
    have hps : ∀ q ∈ ps, colP b q = true := by
      simpa [inv, List.all_eq_true] using hinv
    by_cases hcr : collideRect b range = true
    · simp only [query, if_pos hcr]
      rw [List.count_append, count_filter_pq]
      rfl
    · simp only [query, if_neg hcr]
      by_cases hm : collidesPt range p.x p.y = true
      · rw [if_pos hm]
        have hz : List.count p ps = 0 := by
          by_contra hnz
          have hmem : p ∈ ps := List.count_pos_iff.mp (Nat.pos_of_ne_zero hnz)
          have hb : memb b (pyint p.x) (pyint p.y) = true := hps p hmem
          have hr : memb range (pyint p.x) (pyint p.y) = true := hm
          exact hcr (memb_overlap hb hr)
        have hl : allParticles (QuadTree.leaf ps) = ps := rfl
        rw [hl, hz]
        omega
      · rw [if_neg hm]
        omega
  | node ps ne nw se sw ih1 ih2 ih3 ih4 =>
    intro b found hinv
    simp only [inv, List.all_eq_true, Bool.and_eq_true] at hinv
    obtain ⟨⟨⟨⟨hall, j1⟩, j2⟩, j3⟩, j4⟩ := hinv
    by_cases hcr : collideRect b range = true
    · simp only [query, if_pos hcr]
      rw [ih4 _ _ j4, ih3 _ _ j3, ih2 _ _ j2, ih1 _ _ j1,
        List.count_append, count_filter_pq]
      have hn : allParticles (QuadTree.node ps ne nw se sw) =
          ps ++ allParticles ne ++ allParticles nw ++ allParticles se ++
            allParticles sw := rfl
      rw [hn]
      by_cases hm : collidesPt range p.x p.y = true
      · simp only [hm, if_true, List.count_append]
        omega
      · simp [hm, List.count_append]
    · simp only [query, if_neg hcr]
      by_cases hm : collidesPt range p.x p.y = true
      · rw [if_pos hm]
        have hz : List.count p (allParticles (QuadTree.node ps ne nw se sw)) = 0 := by
          by_contra hnz
          have hmem : p ∈ allParticles (QuadTree.node ps ne nw se sw) :=
            List.count_pos_iff.mp (Nat.pos_of_ne_zero hnz)
          have hb : memb b (pyint p.x) (pyint p.y) = true := hall p hmem
          have hr : memb range (pyint p.x) (pyint p.y) = true := hm
          exact hcr (memb_overlap hb hr)
        rw [hz]
        omega
      · rw [if_neg hm]
        omega

/-- A query threads its accumulator: querying onto a longer accumulator
prepends the unchanged extra part. -/
theorem query_append (range : Rect) :
    ∀ (t : QuadTree) (b : Rect) (f1 f2 : List PQ),
      query b t range (f1 ++ f2) = f1 ++ query b t range f2 := by
  intro t
  induction t with
  | leaf ps =>
    intro b f1 f2
    by_cases hcr : collideRect b range = true
    · simp only [query, if_pos hcr, List.append_assoc]
    · simp only [query, if_neg hcr]
  | node ps ne nw se sw ih1 ih2 ih3 ih4 =>
    intro b f1 f2
    by_cases hcr : collideRect b range = true
    · simp only [query, if_pos hcr]
      rw [List.append_assoc, ih1, ih2, ih3, ih4]
    · simp only [query, if_neg hcr]

/-- Each subdivision child rectangle is strictly smaller than a parent
that contains at least one point. -/
theorem rsize_child_lt {b : Rect} {p : PQ} (h : colP b p = true) :
    rsize (neRect b) < rsize b ∧ rsize (nwRect b) < rsize b ∧
    rsize (seRect b) < rsize b ∧ rsize (swRect b) < rsize b := by
  have h' : memb b (pyint p.x) (pyint p.y) = true := h
  simp only [memb, Bool.and_eq_true, decide_eq_true_eq] at h'
  have hwf : Int.fdiv b.w 2 = b.w / 2 := Int.fdiv_eq_ediv _ (by norm_num)
  have hhf : Int.fdiv b.h 2 = b.h / 2 := Int.fdiv_eq_ediv _ (by norm_num)
  simp only [rsize, neRect, nwRect, seRect, swRect, hwf, hhf]
  omega

/-- The recursion budget is irrelevant once it exceeds the rectangle
size: insertF computes one well-defined insertion function. -/
theorem insertF_fuel_irrelevant :
    ∀ (n fuel fuelB : ℕ) (b : Rect) (cap : ℕ) (t : QuadTree) (p : PQ),
      rsize b ≤ n → rsize b < fuel → rsize b < fuelB →
      insertF fuel b cap t p = insertF fuelB b cap t p := by
  intro n
  induction n with
  | zero =>
    intro fuel fuelB b cap t p hn hf hfB
    have hcol : colP b p = false := by
      by_contra hcc
      have hc' : memb b (pyint p.x) (pyint p.y) = true := by
        simpa [colP, collidesPt] using hcc
      simp only [memb, Bool.and_eq_true, decide_eq_true_eq] at hc'
      simp only [rsize] at hn
      omega
    rw [insertF_out fuel _ _ _ _ hcol, insertF_out fuelB _ _ _ _ hcol]
  | succ m ih =>
    intro fuel fuelB b cap t p hn hf hfB
    by_cases hc : colP b p = true
    · obtain ⟨fuel, rfl⟩ : ∃ k, fuel = k + 1 := ⟨fuel - 1, by omega⟩
      obtain ⟨fuelB, rfl⟩ : ∃ k, fuelB = k + 1 := ⟨fuelB - 1, by omega⟩
      obtain ⟨l1, l2, l3, l4⟩ := rsize_child_lt hc
      have e1 : insertF fuel (neRect b) cap = insertF fuelB (neRect b) cap :=
        funext fun t => funext fun p =>
          ih fuel fuelB (neRect b) cap t p (by omega) (by omega) (by omega)
      have e2 : insertF fuel (nwRect b) cap = insertF fuelB (nwRect b) cap :=
        funext fun t => funext fun p =>
          ih fuel fuelB (nwRect b) cap t p (by omega) (by omega) (by omega)
      have e3 : insertF fuel (seRect b) cap = insertF fuelB (seRect b) cap :=
        funext fun t => funext fun p =>
          ih fuel fuelB (seRect b) cap t p (by omega) (by omega) (by omega)
      have e4 : insertF fuel (swRect b) cap = insertF fuelB (swRect b) cap :=
        funext fun t => funext fun p =>
          ih fuel fuelB (swRect b) cap t p (by omega) (by omega) (by omega)
      cases t with
      | leaf ps =>
        by_cases hlen : ps.length < cap
        · rw [insertF_leaf_room fuel _ _ _ _ hc hlen,
            insertF_leaf_room fuelB _ _ _ _ hc hlen]
        · rw [insertF_leaf_full fuel _ _ _ _ hc hlen,
            insertF_leaf_full fuelB _ _ _ _ hc hlen, e1, e2, e3, e4]
      | node ps ne nw se sw =>
        rw [insertF_node fuel _ _ _ _ _ _ _ _ hc,
          insertF_node fuelB _ _ _ _ _ _ _ _ hc, e1, e2, e3, e4]
    · rw [insertF_out fuel _ _ _ _ (by simpa using hc),
        insertF_out fuelB _ _ _ _ (by simpa using hc)]

/-- insert supplies a sufficient budget: any other sufficient budget
gives the same result. -/
theorem insert_eq_insertF (b : Rect) (cap : ℕ) (t : QuadTree) (p : PQ)
    (fuel : ℕ) (hf : rsize b < fuel) :
    insert b cap t p = insertF fuel b cap t p :=
  insertF_fuel_irrelevant (rsize b) (rsize b + 1) fuel b cap t p
    (le_refl _) (by omega) hf

/-- C5 (amended): insertion never loses a particle that is already in
the tree — during subdivision, a held particle that fails all four
quadrant tests is retained in the node's own list — and it adds exactly
one occurrence of the new particle precisely when it returns true;
when the new particle fails all four quadrant tests of a divided node,
insert returns false and the new particle is dropped. -/
theorem C5_insert_conservation (b : Rect) (cap : ℕ) (t : QuadTree) (p q : PQ) :
    List.count q (allParticles (insert b cap t p).2) =
      List.count q (allParticles t) +
        (if (insert b cap t p).1 = true ∧ q = p then 1 else 0) :=
  insertF_count (rsize b + 1) b cap t p q

/-- Counterexample for C5 as stated: inserting the particle at (2, 2)
into a full capacity-1 leaf over the 3-by-3 root subdivides the node;
the new particle lies inside the node's rectangle but fails all four
quadrant tests, and instead of being retained in the node's contained
list it is dropped: insert returns false and the particle is stored
nowhere in the resulting tree. -/
theorem C5_counterexample :
    colP oddRoot (mkParticleQ 2 2 3) = true ∧
    (insert oddRoot 1 (QuadTree.leaf [mkParticleQ 0 0 3]) (mkParticleQ 2 2 3)).1 = false ∧
    List.count (mkParticleQ 2 2 3)
      (allParticles
        (insert oddRoot 1 (QuadTree.leaf [mkParticleQ 0 0 3]) (mkParticleQ 2 2 3)).2) = 0 := by
  refine ⟨by decide, by decide, by decide⟩

/-- C1 (amended): a particle not already present whose insertion
returned true is returned by a query exactly once, for every query
rectangle containing its point, at any tree depth. -/
theorem C1_completeness_of_successful_insert (b range : Rect) (cap : ℕ)
    (t tB : QuadTree) (p : PQ)
    (hinv : inv b t = true)
    (habsent : List.count p (allParticles t) = 0)
    (hins : insert b cap t p = (true, tB))
    (hrange : collidesPt range p.x p.y = true) :
    List.count p (query b tB range []) = 1 := by
  have hc := insertF_count (rsize b + 1) b cap t p p
  have hi := insertF_inv (rsize b + 1) b cap t p hinv
  have hins' : insertF (rsize b + 1) b cap t p = (true, tB) := hins
  rw [hins'] at hc hi
  dsimp only at hc hi
  rw [habsent, if_pos ⟨rfl, rfl⟩] at hc
  have hq := query_count range p tB b [] hi
  rw [if_pos hrange, hc] at hq
  simpa using hq

/-- Witness for C1: a capacity-1 tree over a 4-by-4 root; the particle
at (1, 1) is inserted successfully and the full-root query returns it
exactly once. -/
theorem C1_witness :
    List.count (mkParticleQ 1 1 3)
      (query ⟨0, 0, 4, 4⟩ (QuadTree.leaf [mkParticleQ 1 1 3]) ⟨0, 0, 4, 4⟩ []) = 1 :=
  C1_completeness_of_successful_insert ⟨0, 0, 4, 4⟩ ⟨0, 0, 4, 4⟩ 1
    (QuadTree.leaf []) (QuadTree.leaf [mkParticleQ 1 1 3]) (mkParticleQ 1 1 3)
    (by decide) (by decide) (by decide) (by decide)

/-- Counterexample for C1 as stated: over the 3-by-3 root with
capacity 1, the particle at (2, 2) lies inside the root boundary and
inside the query rectangle, insert is called on it (triggering a
subdivision that leaves the odd remainder column and row covered by no
child), and the query over the whole root then returns it zero times —
an omission. -/
theorem C1_counterexample :
    colP oddRoot (mkParticleQ 2 2 3) = true ∧
    collidesPt oddRoot (mkParticleQ 2 2 3).x (mkParticleQ 2 2 3).y = true ∧
    (insert oddRoot 1
        (insert oddRoot 1 (QuadTree.leaf []) (mkParticleQ 0 0 3)).2
        (mkParticleQ 2 2 3)).1 = false ∧
    List.count (mkParticleQ 2 2 3)
      (query oddRoot
        (insert oddRoot 1
          (insert oddRoot 1 (QuadTree.leaf []) (mkParticleQ 0 0 3)).2
          (mkParticleQ 2 2 3)).2
        oddRoot []) = 0 := by
  refine ⟨by decide, by decide, by decide, by decide⟩

/-- C10: query only appends to the out-accumulator: the result is
exactly the prior contents of the accumulator, unchanged and in order,
followed by the matches that the same query on an empty accumulator
produces. -/
theorem C10_query_appends_only (b range : Rect) (t : QuadTree) (found : List PQ) :
    query b t range found = found ++ query b t range [] := by
  have h := query_append range t b found []
  rwa [List.append_nil] at h

end Sim
